import Mathlib

/-
  Verification of the git-trunk command dispatcher against its specification.

  File contents (the ignore file, command outputs, interactive answers) are
  modelled as `List Char`, matching Rust `String` byte-for-byte for the ASCII
  data these commands handle.  The external VCS binary is a black box: each
  command is embedded as a function over the observable state it reads and
  writes (mirror directory, local ref, remote ref, ignore file), with the
  exact argument lists and text transformations taken from the source.
-/

/-- One step of Rust `str::lines`: turn the reversed accumulator into a line,
stripping a trailing carriage return (a line that ended with CRLF). -/
def emitLine (acc : List Char) : List Char :=
  if acc.head? == some '\r' then acc.tail.reverse else acc.reverse

/-- Worker for Rust `str::lines`: split at every LF, strip a CR before each LF,
keep a trailing CR on the final unterminated line, and drop the optional final
line terminator. -/
def linesGo : List Char → List Char → List (List Char)
  | [], acc => if acc.isEmpty then [] else [acc.reverse]
  | c :: rest, acc => if c = '\n' then emitLine acc :: linesGo rest [] else linesGo rest (c :: acc)

/-- Rust `str::lines` on a character list. -/
def rustLines (l : List Char) : List (List Char) := linesGo l []

/-- Rust `str::trim` (ASCII whitespace; line content here is ASCII). -/
def trimChars (l : List Char) : List Char :=
  ((l.dropWhile Char.isWhitespace).reverse.dropWhile Char.isWhitespace).reverse

/-- `line.trim() == ".trunk"`, the ignore-entry test used by the source. -/
def isTrunkLine (l : List Char) : Bool := trimChars l == ".trunk".data

/-- `content.lines().any(|line| line.trim() == ".trunk")`. -/
def hasTrunkLine (l : List Char) : Bool := (rustLines l).any isTrunkLine

/-- Rust `content.ends_with('\n')`. -/
def endsNL (l : List Char) : Bool := l.getLast? == some '\n'

/-- Whether the content contains a CRLF sequence anywhere. -/
def hasCRLF : List Char → Bool
  | [] => false
  | c :: rest => (c == '\r' && rest.head? == some '\n') || hasCRLF rest

/-- `utils::ensure_trunk_in_gitignore`: the ignore file is `none` when absent.
Reads the file, and unless some line trims to `.trunk`, appends `.trunk` on its
own line, inserting a newline first when the existing content lacks a trailing
one. -/
def ensure_trunk_in_gitignore : Option (List Char) → Option (List Char)
  | none => some ".trunk\n".data
  | some c =>
    if hasTrunkLine c then some c
    else
      let base := if c ≠ [] ∧ ¬ endsNL c then c ++ ['\n'] else c
      some (base ++ ".trunk\n".data)

/-- `utils::remove_trunk_from_gitignore`: filters out lines trimming to
`.trunk`, rejoins with LF and a trailing LF when any line remains; leaves the
file untouched when no such line was present, and never deletes the file. -/
def remove_trunk_from_gitignore : Option (List Char) → Option (List Char)
  | none => none
  | some c =>
    let ls := rustLines c
    let newLines := ls.filter (fun l => !(isTrunkLine l))
    if newLines.length < ls.length then
      let updated := List.intercalate ['\n'] newLines
      some (if newLines.isEmpty then updated else updated ++ ['\n'])
    else some c

/-- `input.trim().to_lowercase()`, the normalisation every interactive prompt
applies to the line read from standard input. -/
def normAnswer (input : List Char) : List Char := (trimChars input).map Char.toLower

/-- The yes-test shared by the prompts: the normalised answer is `y` or `yes`. -/
def yesAnswer (input : List Char) : Bool :=
  normAnswer input == "y".data || normAnswer input == "yes".data

namespace Push

/-- The argument list `commands::push::run` hands to the VCS in its step 2:
the refspec is the fixed string `refs/trunk/main:refs/trunk/main`, independent
of any store name. -/
def pushArgs (remote : List Char) : List (List Char) :=
  ["push".data, remote, "refs/trunk/main:refs/trunk/main".data]

/-- `commands::push::run`: step 1 verifies that `refs/trunk/main` exists
locally (exit 1 otherwise), step 2 issues the push command built by
`Push.pushArgs`.  Returns the exit code and the push invocation made, if any. -/
def run (remote : List Char) (localTrunkMainExists : Bool) :
    Nat × Option (List (List Char)) :=
  if localTrunkMainExists then (0, some (pushArgs remote)) else (1, none)

end Push

/-- Modelled from the spec (the refspec the push claim expects): push the
store's own ref to the same-named ref, `refs/trunk/<store>:refs/trunk/<store>`. -/
def claimedPushRefspec (store : List Char) : List Char :=
  "refs/trunk/".data ++ store ++ [':'] ++ "refs/trunk/".data ++ store

namespace Commit

/-- Observable inputs of `commands::commit::run`: whether the mirror directory
`.trunk/<store>` exists, the output of `git status --porcelain` inside it, the
trimmed output of `git rev-parse main` there, and — black-boxing the VCS — the
mirror head after `git add -A; git commit` runs on a dirty mirror. -/
structure Env where
  mirrorExists : Bool
  statusPorcelain : List Char
  mirrorHead : List Char
  headAfterCommit : List Char
deriving DecidableEq, Repr

/-- `commands::commit::run` as a transition on the main-repo ref
`refs/trunk/<store>`.  Exits 1 when the mirror is missing (step 2) or its head
hash is empty (step 6); aborts with exit 0 and no ref change when the staging
prompt is declined (step 4); otherwise steps 7-8 fetch the mirror head and run
`git update-ref refs/trunk/<store> <hash>` unconditionally. -/
def run (force answerYes : Bool) (env : Env) (trunkRef : Option (List Char)) :
    Nat × Option (List Char) :=
  if ¬ env.mirrorExists then (1, trunkRef)
  else if env.statusPorcelain ≠ [] ∧ ¬ force ∧ ¬ answerYes then (0, trunkRef)
  else
    let head := if env.statusPorcelain = [] then env.mirrorHead else env.headAfterCommit
    if head = [] then (1, trunkRef) else (0, some head)

end Commit

namespace Delete

/-- Observable state touched by `commands::delete::run`: the ignore file, the
mirror-root directory `.trunk` with the names of the store mirrors inside it
(`none` when the directory is absent), the local ref `refs/trunk/main`, and
the same ref on the remote `origin`. -/
structure State where
  gitignore : Option (List Char)
  trunkStores : Option (List String)
  localRef : Option (List Char)
  remoteRef : Option (List Char)
deriving DecidableEq, Repr

/-- Step 4 of `commands::delete::run`: join the lines whose trim is not
`.trunk`, and when that joined text differs from the original content rewrite
the file with it (plus a trailing newline when nonempty). -/
def gitignoreStep (c : List Char) : List Char :=
  let updated := List.intercalate ['\n'] ((rustLines c).filter (fun l => !(isTrunkLine l)))
  if updated ≠ c then (if updated = [] then [] else updated ++ ['\n']) else c

/-- `commands::delete::run`: step 1 prompts and exits 0 untouched unless the
answer normalises to `y`/`yes`; step 2 exits 1 outside a repository; then
step 4 rewrites the ignore file, step 5 runs `fs::remove_dir_all` on the whole
`.trunk` directory, and steps 6-7 delete `refs/trunk/main` locally and on
`origin` when present. -/
def run (input : List Char) (insideRepo : Bool) (s : State) : Nat × State :=
  if ¬ yesAnswer input then (0, s)
  else if ¬ insideRepo then (1, s)
  else (0, { gitignore := s.gitignore.map gitignoreStep,
             trunkStores := none, localRef := none, remoteRef := none })

end Delete

namespace Hooks

/-- What one hook installation step of `commands::hooks::run` does: whether it
read an answer from standard input, and whether the hook script was written. -/
structure Outcome where
  prompted : Bool
  installed : Bool
deriving DecidableEq, Repr

/-- Steps 4 and 5 of `commands::hooks::run`, one hook each: when the hook file
exists and `force` is unset, prompt to overwrite and install on a yes answer;
otherwise prompt to install and install when the answer is yes **or** `force`
is set.  Both branches print a prompt and read standard input. -/
def hookStep (force hookExists : Bool) (answer : List Char) : Outcome :=
  if hookExists && !force then ⟨true, yesAnswer answer⟩
  else ⟨true, yesAnswer answer || force⟩

/-- `commands::hooks::run` on the two hooks (post-commit, then pre-push). -/
def run (force : Bool) (postExists prePushExists : Bool) (ans1 ans2 : List Char) :
    Outcome × Outcome :=
  (hookStep force postExists ans1, hookStep force prePushExists ans2)

end Hooks

namespace InitCmd

/-- Observable state touched by `commands::init::run` for one store. -/
structure State where
  insideRepo : Bool
  gitignore : Option (List Char)
  parentTrunkExists : Bool
  storeDirExists : Bool
  storeHasCommit : Bool
deriving DecidableEq, Repr

/-- Step 3 of `commands::init::run` (its own inline ignore-file editor):
append `.trunk` plus newline unless some line already trims to `.trunk`;
unlike `utils::ensure_trunk_in_gitignore` it never inserts a separating
newline first. -/
def gitignoreStep : Option (List Char) → Option (List Char)
  | none => some ".trunk\n".data
  | some c => if hasTrunkLine c then some c else some (c ++ ".trunk\n".data)

/-- `commands::init::run` without `force`: exit 1 outside a repository
(step 1); ensure the ignore entry (step 3) and create the parent `.trunk`
directory (step 4); then, when `.trunk/<store>` already exists, return
successfully without touching it (step 5); otherwise create the store mirror,
its marker document and its initial commit (steps 5-9). -/
def run (force : Bool) (s : State) : Nat × State :=
  if ¬ s.insideRepo then (1, s)
  else
    let s1 := { s with gitignore := gitignoreStep s.gitignore, parentTrunkExists := true }
    if s.storeDirExists ∧ ¬ force then (0, s1)
    else (0, { s1 with storeDirExists := true, storeHasCommit := true })

end InitCmd

namespace Stegano

/-- Step 4b of `commands::stegano::run`, the ignore-file cleanup it performs
after the last mirror is gone: strip the suffix `"\n.trunk\n"`, else the
suffix `".trunk\n"`, else leave the content unchanged. -/
def cleanupGitignore (c : List Char) : List Char :=
  if "\n.trunk\n".data.isSuffixOf c then c.take (c.length - 8)
  else if ".trunk\n".data.isSuffixOf c then c.take (c.length - 7)
  else c

end Stegano

/-! ### Auxiliary lemmas about the line model -/

theorem linesGo_cons_nl (rest acc : List Char) :
    linesGo ('\n' :: rest) acc = emitLine acc :: linesGo rest [] := by
  simp [linesGo]

theorem linesGo_cons_other (c : Char) (rest acc : List Char) (h : c ≠ '\n') :
    linesGo (c :: rest) acc = linesGo rest (c :: acc) := by
  simp [linesGo, h]

theorem linesGo_ne_nil : ∀ (l acc : List Char), l ≠ [] ∨ acc ≠ [] → linesGo l acc ≠ [] := by
  intro l
  induction l with
  | nil =>
    intro acc h
    rcases h with h | h
    · exact absurd rfl h
    · simp [linesGo, h]
  | cons c rest ih =>
    intro acc _
    by_cases hc : c = '\n'
    · simp [linesGo, hc]
    · simp only [linesGo, if_neg hc]
      exact ih (c :: acc) (Or.inr (List.cons_ne_nil c acc))

theorem linesGo_append (a ys : List Char) :
    ∀ acc, linesGo (a ++ '\n' :: ys) acc = linesGo (a ++ ['\n']) acc ++ linesGo ys [] := by
  induction a with
  | nil =>
    intro acc
    simp [linesGo]
  | cons c a' ih =>
    intro acc
    by_cases hc : c = '\n'
    · subst hc
      simp [linesGo, ih]
    · simp [linesGo, hc, ih]

theorem hasCRLF_cons (c : Char) (rest : List Char) :
    hasCRLF (c :: rest) = ((c == '\r') && (rest.head? == some '\n') || hasCRLF rest) := rfl

theorem hasCRLF_append_of_right (a b : List Char) (h : hasCRLF b = true) :
    hasCRLF (a ++ b) = true := by
  induction a with
  | nil => simpa using h
  | cons x a' ih => simp [hasCRLF_cons, ih]

theorem hasCRLF_crlf (a b : List Char) : hasCRLF (a ++ '\r' :: '\n' :: b) = true := by
  induction a with
  | nil => simp [hasCRLF_cons]
  | cons x a' ih => simp [hasCRLF_cons, ih]

theorem hasCRLF_false_right (a b : List Char) (h : hasCRLF (a ++ b) = false) :
    hasCRLF b = false := by
  cases hb : hasCRLF b with
  | false => rfl
  | true =>
    have := hasCRLF_append_of_right a b hb
    rw [h] at this
    exact absurd this (by decide)

theorem hasCRLF_false_tail (c : Char) (rest : List Char)
    (h : hasCRLF (c :: rest) = false) : hasCRLF rest = false := by
  rw [hasCRLF_cons, Bool.or_eq_false_iff] at h
  exact h.2

theorem emitLine_eq_of_no_crlf (acc rest : List Char)
    (h : hasCRLF (acc.reverse ++ '\n' :: rest) = false) : emitLine acc = acc.reverse := by
  cases acc with
  | nil => simp [emitLine]
  | cons a t =>
    by_cases ha : a = '\r'
    · exfalso
      subst ha
      have htrue : hasCRLF (('\r' :: t).reverse ++ '\n' :: rest) = true := by
        rw [List.reverse_cons, List.append_assoc]
        simpa using hasCRLF_crlf t.reverse rest
      rw [h] at htrue
      exact absurd htrue (by decide)
    · simp [emitLine, ha]

theorem intercalate_single (x : List Char) : List.intercalate ['\n'] [x] = x := by
  simp [List.intercalate]

theorem intercalate_cons₂ (x y : List Char) (ys : List (List Char)) :
    List.intercalate ['\n'] (x :: y :: ys) = x ++ '\n' :: List.intercalate ['\n'] (y :: ys) := by
  simp [List.intercalate]

/-- Joining the Rust lines of a newline-terminated, CRLF-free text with LF and
restoring the final LF reproduces the text exactly. -/
theorem intercalate_linesGo : ∀ (l acc : List Char), l.getLast? = some '\n' →
    hasCRLF (acc.reverse ++ l) = false →
    List.intercalate ['\n'] (linesGo l acc) ++ ['\n'] = acc.reverse ++ l := by
  intro l
  induction l with
  | nil =>
    intro acc h _
    simp at h
  | cons c rest ih =>
    intro acc hlast hcrlf
    by_cases hc : c = '\n'
    · subst hc
      have hemit : emitLine acc = acc.reverse := emitLine_eq_of_no_crlf acc rest hcrlf
      cases rest with
      | nil =>
        simp [linesGo, hemit, intercalate_single]
      | cons y ys =>
        have hrest : hasCRLF (y :: ys) = false :=
          hasCRLF_false_tail '\n' (y :: ys) (hasCRLF_false_right acc.reverse _ hcrlf)
        have hlast' : (y :: ys).getLast? = some '\n' := by
          rwa [List.getLast?_cons_cons] at hlast
        have ihr := ih [] hlast' (by simpa using hrest)
        cases hLG : linesGo (y :: ys) [] with
        | nil => exact absurd hLG (linesGo_ne_nil (y :: ys) [] (Or.inl (List.cons_ne_nil y ys)))
        | cons z zs =>
          rw [hLG] at ihr
          rw [linesGo_cons_nl, hLG, intercalate_cons₂, hemit, List.append_assoc,
            List.cons_append, ihr]
          simp
    · have hne : rest ≠ [] := by
        intro hr
        subst hr
        simp at hlast
        exact hc hlast
      cases rest with
      | nil => exact absurd rfl hne
      | cons y ys =>
        have hlast' : (y :: ys).getLast? = some '\n' := by
          rwa [List.getLast?_cons_cons] at hlast
        have hcrlf' : hasCRLF ((c :: acc).reverse ++ y :: ys) = false := by
          rw [List.reverse_cons, List.append_assoc]
          simpa using hcrlf
        have ihr := ih (c :: acc) hlast' hcrlf'
        have hstep : linesGo (c :: y :: ys) acc = linesGo (y :: ys) (c :: acc) := by
          simp [linesGo, hc]
        rw [hstep, ihr, List.reverse_cons, List.append_assoc]
        simp

/-- Appending the `.trunk` entry to empty or newline-terminated content always
yields content with a line trimming to `.trunk`. -/
theorem hasTrunkLine_append_trunk (b : List Char) (h : b = [] ∨ endsNL b = true) :
    hasTrunkLine (b ++ ".trunk\n".data) = true := by
  rcases h with h | h
  · subst h
    decide
  · have hb : b.dropLast ++ ['\n'] = b := by
      apply List.dropLast_append_getLast?
      simpa [endsNL] using h
    have hsplit : b ++ ".trunk\n".data = b.dropLast ++ '\n' :: ".trunk\n".data := by
      rw [← hb, List.append_assoc]
      simp
    unfold hasTrunkLine rustLines
    rw [hsplit, linesGo_append]
    have htail : linesGo ".trunk\n".data [] = [".trunk".data] := by decide
    rw [htail, List.any_append]
    have ht : List.any [".trunk".data] isTrunkLine = true := by decide
    rw [ht, Bool.or_true]

/-- The lines of `c ++ ".trunk\n"` are the lines of `c` plus a final `.trunk`
line, when `c` is empty or newline-terminated. -/
theorem rustLines_append_trunk (c : List Char) (h : c = [] ∨ endsNL c = true) :
    rustLines (c ++ ".trunk\n".data) = rustLines c ++ [".trunk".data] := by
  rcases h with h | h
  · subst h
    decide
  · have hb : c.dropLast ++ ['\n'] = c := by
      apply List.dropLast_append_getLast?
      simpa [endsNL] using h
    have hsplit : c ++ ".trunk\n".data = c.dropLast ++ '\n' :: ".trunk\n".data := by
      rw [← hb, List.append_assoc]
      simp
    unfold rustLines
    rw [hsplit, linesGo_append]
    have htail : linesGo ".trunk\n".data [] = [".trunk".data] := by decide
    rw [htail, hb]

theorem filter_not_trunk_eq_self (c : List Char) (h : hasTrunkLine c = false) :
    (rustLines c).filter (fun l => !(isTrunkLine l)) = rustLines c := by
  apply List.filter_eq_self.mpr
  intro a ha
  unfold hasTrunkLine at h
  rw [List.any_eq_false] at h
  simp [h a ha]

theorem ensure_of_hasTrunkLine (c : List Char) (h : hasTrunkLine c = true) :
    ensure_trunk_in_gitignore (some c) = some c := by
  simp [ensure_trunk_in_gitignore, h]

/-! ### Claim theorems -/

/-- Claim C1 (code bug evidence): for the failing input store `notes`, the
push operation still issues the fixed argument list
`push origin refs/trunk/main:refs/trunk/main`; the refspec the claim requires
for store `notes` is `refs/trunk/notes:refs/trunk/notes`, which differs. -/
theorem c1_push_hardcodes_main_store :
    Push.run "origin".data true =
      (0, some ["push".data, "origin".data, "refs/trunk/main:refs/trunk/main".data]) ∧
    "refs/trunk/main:refs/trunk/main".data ≠ claimedPushRefspec "notes".data ∧
    claimedPushRefspec "notes".data = "refs/trunk/notes:refs/trunk/notes".data := by
  refine ⟨rfl, by decide, by decide⟩

/-- Claim C2 (code bug evidence): with stores `docs` and `main` both mirrored
under `.trunk`, a confirmed delete of store `main` removes the whole mirror
root (`trunkStores` becomes `none`), so `.trunk/docs` is deleted as well,
where the claim says it must be left in place. -/
theorem c2_delete_removes_all_mirrors :
    Delete.run "y".data true
        ⟨some ".trunk\n".data, some ["docs", "main"], some "h".data, some "h".data⟩ =
      (0, ⟨some [], none, none, none⟩) ∧
    (some ["docs", "main"] : Option (List String)) ≠ none := by
  exact ⟨by decide, by decide⟩

/-- Claim C3 (code bug evidence): a confirmed delete rewrites the ignore file,
dropping its `.trunk` line — where the claim says delete never edits the
ignore file. -/
theorem c3_delete_edits_gitignore :
    (Delete.run "y".data true
        ⟨some "node_modules\n.trunk\n".data, some ["main"], some "h".data, none⟩).2.gitignore =
      some "node_modules\n".data ∧
    some "node_modules\n".data ≠ some "node_modules\n.trunk\n".data := by
  exact ⟨by decide, by decide⟩

/-- Claim C4 counterexample: with a clean mirror whose head is `abc` and no
pre-existing main-repo ref, commit exits 0 but the ref changes from `none` to
that head — it is not left unchanged. -/
theorem c4_counterexample :
    Commit.run false false ⟨true, [], "abc".data, "zzz".data⟩ none = (0, some "abc".data) ∧
    (some "abc".data : Option (List Char)) ≠ none := by
  exact ⟨by decide, by decide⟩

/-- Claim C4 (amended): when the mirror exists, reports no uncommitted
changes, and its `main` head is nonempty, commit exits 0 and sets the
main-repo ref to that head (creating or moving it); the ref is unchanged
exactly when it already pointed there. -/
theorem c4_commit_clean_sets_ref_to_head (force answerYes : Bool) (env : Commit.Env)
    (trunkRef : Option (List Char)) (h1 : env.mirrorExists = true)
    (h2 : env.statusPorcelain = []) (h3 : env.mirrorHead ≠ []) :
    Commit.run force answerYes env trunkRef = (0, some env.mirrorHead) := by
  simp [Commit.run, h1, h2, h3]

/-- Witness for the amended C4 theorem at a concrete clean-mirror state. -/
theorem c4_commit_clean_witness :
    (⟨true, [], "abc".data, "zzz".data⟩ : Commit.Env).mirrorExists = true ∧
    (⟨true, [], "abc".data, "zzz".data⟩ : Commit.Env).statusPorcelain = [] ∧
    (⟨true, [], "abc".data, "zzz".data⟩ : Commit.Env).mirrorHead ≠ [] ∧
    Commit.run true true ⟨true, [], "abc".data, "zzz".data⟩ (some "old".data) =
      (0, some "abc".data) :=
  ⟨rfl, rfl, by decide,
    c4_commit_clean_sets_ref_to_head true true _ (some "old".data) rfl rfl (by decide)⟩

/-- Claim C5: the content produced by one `ensure_excluded` call always
contains a line trimming to `.trunk`, so a second call changes nothing —
the ignore file stays byte-identical. -/
theorem c5_ensure_excluded_idempotent (g : Option (List Char)) :
    ensure_trunk_in_gitignore (ensure_trunk_in_gitignore g) = ensure_trunk_in_gitignore g := by
  cases g with
  | none =>
    have h0 : ensure_trunk_in_gitignore none = some ".trunk\n".data := rfl
    rw [h0]
    exact ensure_of_hasTrunkLine _ (by decide)
  | some c =>
    by_cases h : hasTrunkLine c = true
    · rw [ensure_of_hasTrunkLine c h, ensure_of_hasTrunkLine c h]
    · have h' : hasTrunkLine c = false := by simpa using h
      by_cases hb : c ≠ [] ∧ ¬ endsNL c
      · have he : ensure_trunk_in_gitignore (some c) =
            some ((c ++ ['\n']) ++ ".trunk\n".data) := by
          simp [ensure_trunk_in_gitignore, h', hb]
        rw [he]
        apply ensure_of_hasTrunkLine
        apply hasTrunkLine_append_trunk
        right
        simp [endsNL, List.getLast?_concat]
      · have hor : c = [] ∨ endsNL c = true := by
          by_cases hc : c = []
          · exact Or.inl hc
          · right
            rcases not_and_or.mp hb with h1 | h2
            · exact absurd hc (by simpa using h1)
            · simpa using h2
        have hbase : (if c ≠ [] ∧ ¬ endsNL c then c ++ ['\n'] else c) = c := by
          rcases hor with hx | hx
          · simp [hx]
          · simp [hx]
        have he : ensure_trunk_in_gitignore (some c) = some (c ++ ".trunk\n".data) := by
          simp only [ensure_trunk_in_gitignore]
          rw [if_neg (by simp [h']), hbase]
        rw [he]
        exact ensure_of_hasTrunkLine _ (hasTrunkLine_append_trunk c hor)

/-- Claim C6 counterexample: for initial content `foo` with no trailing
newline, `remove_excluded` after `ensure_excluded` yields `foo` plus a
trailing newline, not the original content. -/
theorem c6_counterexample :
    remove_trunk_from_gitignore (ensure_trunk_in_gitignore (some "foo".data)) =
      some "foo\n".data ∧
    some "foo\n".data ≠ some "foo".data := by
  exact ⟨by decide, by decide⟩

/-- Claim C6 (amended): the round trip restores the ignore file byte-for-byte
provided the file exists and its content has no line trimming to `.trunk`, is
empty or newline-terminated, and contains no CRLF line ending; contents
outside these conditions (no trailing newline, CRLF endings, pre-existing
`.trunk` lines, absent file) are normalised instead. -/
theorem c6_round_trip_normalized (c : List Char) (h1 : hasTrunkLine c = false)
    (h2 : c = [] ∨ endsNL c = true) (h3 : hasCRLF c = false) :
    remove_trunk_from_gitignore (ensure_trunk_in_gitignore (some c)) = some c := by
  have hbase : (if c ≠ [] ∧ ¬ endsNL c then c ++ ['\n'] else c) = c := by
    rcases h2 with h | h
    · simp [h]
    · simp [h]
  have hens : ensure_trunk_in_gitignore (some c) = some (c ++ ".trunk\n".data) := by
    simp only [ensure_trunk_in_gitignore]
    rw [if_neg (by simp [h1]), hbase]
  rw [hens]
  rcases h2 with rfl | h2e
  · decide
  · have hcne : c ≠ [] := by
      intro hc
      rw [hc] at h2e
      exact absurd h2e (by decide)
    simp only [remove_trunk_from_gitignore]
    rw [rustLines_append_trunk c (Or.inr h2e), List.filter_append,
      filter_not_trunk_eq_self c h1]
    have hTl : List.filter (fun l => !(isTrunkLine l)) [".trunk".data] = [] := by decide
    rw [hTl, List.append_nil]
    have hlen : (rustLines c).length < (rustLines c ++ [".trunk".data]).length := by
      simp
    rw [if_pos hlen]
    cases hLG : rustLines c with
    | nil => exact absurd hLG (linesGo_ne_nil c [] (Or.inl hcne))
    | cons z zs =>
      have hlast : c.getLast? = some '\n' := by simpa [endsNL] using h2e
      have hjoin := intercalate_linesGo c [] hlast (by simpa using h3)
      simp only [List.reverse_nil, List.nil_append] at hjoin
      unfold rustLines at hLG
      rw [hLG] at hjoin
      simp only [List.isEmpty_cons, if_neg Bool.false_ne_true]
      rw [hjoin]

/-- Witness for the amended C6 theorem at concrete content `keep` plus
newline. -/
theorem c6_round_trip_witness :
    hasTrunkLine "keep\n".data = false ∧ endsNL "keep\n".data = true ∧
    hasCRLF "keep\n".data = false ∧
    remove_trunk_from_gitignore (ensure_trunk_in_gitignore (some "keep\n".data)) =
      some "keep\n".data :=
  ⟨by decide, by decide, by decide,
    c6_round_trip_normalized "keep\n".data (by decide) (Or.inr (by decide)) (by decide)⟩

/-- Claim C7: when the delete confirmation answer does not normalise to yes,
delete exits 0 and every location — ignore file, mirror root, local ref,
remote ref — is left untouched. -/
theorem c7_delete_declined_is_noop (input : List Char) (insideRepo : Bool)
    (s : Delete.State) (h : yesAnswer input = false) :
    Delete.run input insideRepo s = (0, s) := by
  simp [Delete.run, h]

/-- Witness for C7: answering `n` on a fully populated state. -/
theorem c7_delete_declined_witness :
    yesAnswer "n".data = false ∧
    Delete.run "n".data true
        ⟨some ".trunk\n".data, some ["main"], some "h".data, some "h".data⟩ =
      (0, ⟨some ".trunk\n".data, some ["main"], some "h".data, some "h".data⟩) :=
  ⟨by decide, c7_delete_declined_is_noop "n".data true _ (by decide)⟩

/-- Claim C8 counterexample: with `force` set and no hooks present, answering
`n` to both prompts: each hook step still prompts (reads standard input), so
"no interactive prompt occurs" fails even though both hooks are installed. -/
theorem c8_counterexample :
    (Hooks.run true false false "n".data "n".data).1.prompted = true ∧
    (Hooks.run true false false "n".data "n".data).2.prompted = true := by
  exact ⟨by decide, by decide⟩

/-- Claim C8 (amended): with `force` set, both hook scripts are installed
whatever the answers, but each hook still triggers an interactive prompt and
a standard-input read — force overrides the answer, it does not pre-empt the
prompt. -/
theorem c8_force_installs_despite_prompt (postExists prePushExists : Bool)
    (ans1 ans2 : List Char) :
    Hooks.run true postExists prePushExists ans1 ans2 = (⟨true, true⟩, ⟨true, true⟩) := by
  simp [Hooks.run, Hooks.hookStep]

/-- Claim C9: init without force on an already-mirrored store returns exit 0
without touching the store directory, but has already ensured the ignore
entry and created the parent `.trunk` directory. -/
theorem c9_init_existing_store_still_edits (s : InitCmd.State) (h1 : s.insideRepo = true)
    (h2 : s.storeDirExists = true) :
    InitCmd.run false s =
      (0, { s with gitignore := InitCmd.gitignoreStep s.gitignore,
                   parentTrunkExists := true }) := by
  simp [InitCmd.run, h1, h2]

/-- Witness for C9: a state with no ignore file and no parent `.trunk`
directory — the "no-op" path writes the ignore entry and creates the
directory. -/
theorem c9_init_witness :
    (⟨true, none, false, true, false⟩ : InitCmd.State).insideRepo = true ∧
    (⟨true, none, false, true, false⟩ : InitCmd.State).storeDirExists = true ∧
    InitCmd.run false ⟨true, none, false, true, false⟩ =
      (0, ⟨true, some ".trunk\n".data, true, true, false⟩) := by
  refine ⟨rfl, rfl, ?_⟩
  rw [c9_init_existing_store_still_edits ⟨true, none, false, true, false⟩ rfl rfl]
  decide

/-- Claim C10: stegano's ignore-file cleanup changes the content only when it
ends with the suffix `"\n.trunk\n"` or `".trunk\n"` (which it strips); an
exact `.trunk` line earlier in the file is left in place, unlike
`remove_excluded`, which filters it out. -/
theorem c10_stegano_cleanup_suffix_only :
    (∀ c : List Char, Stegano.cleanupGitignore c = c ∨
       "\n.trunk\n".data.isSuffixOf c = true ∨ ".trunk\n".data.isSuffixOf c = true) ∧
    Stegano.cleanupGitignore "foo\n.trunk\n".data = "foo".data ∧
    Stegano.cleanupGitignore ".trunk\nkeep\n".data = ".trunk\nkeep\n".data ∧
    remove_trunk_from_gitignore (some ".trunk\nkeep\n".data) = some "keep\n".data := by
  refine ⟨?_, by decide, by decide, by decide⟩
  intro c
  by_cases h1 : "\n.trunk\n".data.isSuffixOf c = true
  · exact Or.inr (Or.inl h1)
  · by_cases h2 : ".trunk\n".data.isSuffixOf c = true
    · exact Or.inr (Or.inr h2)
    · left
      simp only [Stegano.cleanupGitignore]
      rw [if_neg h1, if_neg h2]
